import Mathlib

/-!
# Mesh / tessellation / ROI-labeling core of the neuropythy tutorials

The repository under verification (noahbenson/neuropythy-tutorials) consists of
tutorial notebooks that call into the external neuropythy library; no
implementation of the mesh, trace, or labeling subsystem is present in the
repository itself.  Following the specification (spec.md §3-§4), the subsystem
is therefore modelled here directly from the spec's words: tessellation
topology (faces, deduplicated edges, fan-walk neighborhoods, sub-mesh
restriction), the ROI path-trace state machine, the `paths_to_labels`
ordered-precedence label merger with its ray-casting point-in-polygon test,
the `to_mask` range form, and the JSON-compatible trace record.
-/

namespace Neuropythy

/-- A 2D point with exact integer coordinates (the clicked pixels of a trace,
or a vertex position on a flatmap). -/
abbrev Point : Type := ℤ × ℤ

/-! ## Point-in-polygon (ray casting), modelled from spec §4.4 step 1 -/

/-- Modelled from the spec: the standard ray-casting crossing test for one side
`a`-`b` of the closed polygon against the rightward horizontal ray from `p`,
in exact integer arithmetic.  The side is counted when it straddles the ray's
horizontal line (half-open rule) and `p` lies strictly on the crossing side. -/
def crossesRay (p a b : Point) : Bool :=
  if (decide (a.2 ≤ p.2)) = (decide (b.2 ≤ p.2)) then false
  else
    let d : ℤ := (b.1 - a.1) * (p.2 - a.2) - (b.2 - a.2) * (p.1 - a.1)
    if a.2 < b.2 then decide (0 < d) else decide (d < 0)

/-- Modelled from the spec: whether `p` lies exactly on the closed segment from
`a` to `b` (collinearity plus bounding-box containment). -/
def onSegment (p a b : Point) : Bool :=
  decide ((b.1 - a.1) * (p.2 - a.2) = (b.2 - a.2) * (p.1 - a.1)) &&
  decide (min a.1 b.1 ≤ p.1) && decide (p.1 ≤ max a.1 b.1) &&
  decide (min a.2 b.2 ≤ p.2) && decide (p.2 ≤ max a.2 b.2)

/-- The sides of the closed polygon through `pts`, each vertex joined to the
next and the last joined back to the first. -/
def polygonSides (pts : List Point) : List (Point × Point) :=
  pts.zip (pts.drop 1 ++ pts.take 1)

/-- Whether `p` lies on the boundary of the closed polygon through `pts`. -/
def onBoundary (pts : List Point) (p : Point) : Bool :=
  (polygonSides pts).any fun s => onSegment p s.1 s.2

/-- Number of polygon sides crossed by the rightward ray from `p`. -/
def crossingCount (pts : List Point) (p : Point) : ℕ :=
  ((polygonSides pts).filter fun s => crossesRay p s.1 s.2).length

/-- Modelled from the spec: point-in-polygon test for the closed polyline
through `pts` (even-odd ray casting; points exactly on the boundary are
included, per spec §4.4 step 1). -/
def insideB (pts : List Point) (p : Point) : Bool :=
  onBoundary pts p || decide (crossingCount pts p % 2 = 1)

/-! ## ROI path traces and the label merger, modelled from spec §3 and §4.4 -/

/-- Modelled from the spec: a captured ROI path trace — the ordered clicked
points, the closed flag, and the persistent/finalized flag (spec §3,
"ROI Path Trace").  The notebook consults `is_persistent()` to decide whether
a trace participates in plotting and merging. -/
structure PathTrace where
  points : List Point
  closed : Bool
  persistent : Bool
deriving DecidableEq, Repr

/-- Modelled from the spec: only finalized, persistent traces participate in
the label merge; non-finalized entries are skipped (spec §4.4). -/
def participating (rois : List PathTrace) : List PathTrace :=
  rois.filter fun tr => tr.persistent

/-- Whether a target-mesh vertex, given by its optional 2D flatmap coordinate,
lies inside the closed polygon of the trace `tr`.  A vertex with no flatmap
coordinate (outside the projected region) is inside no polygon. -/
def vertexInside (tr : PathTrace) (oc : Option Point) : Bool :=
  match oc with
  | none => false
  | some q => insideB tr.points q

/-- Modelled from the spec: one pass of the label merger (spec §4.4 steps
1-3): every vertex inside the current ROI's polygon whose label is still 0
receives the current ordinal `ord`; all other vertices are left untouched. -/
def labelStep (coords : List (Option Point)) (ord : ℕ) (tr : PathTrace)
    (labels : List ℕ) : List ℕ :=
  (labels.zip coords).map fun lc =>
    if lc.1 = 0 ∧ vertexInside tr lc.2 = true then ord else lc.1

/-- The label merger's fold over the ordered ROI traces, threading the
1-based ordinal. -/
def mergeFrom (coords : List (Option Point)) : ℕ → List PathTrace → List ℕ → List ℕ
  | _, [], labels => labels
  | ord, tr :: rest, labels => mergeFrom coords (ord + 1) rest (labelStep coords ord tr labels)

/-- Modelled from the spec: `paths_to_labels` (spec §4.4; the notebook's
`ny.paths_to_labels(hem, traces)`).  `coords` holds, for each vertex of the
target mesh, its 2D flatmap coordinate, or `none` when the vertex lies outside
the flatmap's projected region.  Finalized traces are processed in order with
1-based ordinals; labels start at 0 (background). -/
def paths_to_labels (coords : List (Option Point)) (rois : List PathTrace) : List ℕ :=
  mergeFrom coords 1 (participating rois) (List.replicate coords.length 0)

/-- Modelled from the spec (the first-writer-wins description, spec §3
"Label Assignment"): the label a vertex ought to receive — one plus the
position of the earliest participating ROI whose polygon contains it, or 0
when none does. -/
def firstWriterLabel (rois : List PathTrace) (oc : Option Point) : ℕ :=
  let j := rois.findIdx fun tr => vertexInside tr oc
  if j < rois.length then j + 1 else 0

/-! ## Concrete example mesh and polygons from spec §8 -/

/-- The collinear-ish vertices of the spec's label-merge example, indexed
0 through 5 along the x-axis (coordinates doubled so that the polygon bounds
fall strictly between vertices). -/
def exampleCoords : List Point := [(0, 0), (2, 0), (4, 0), (6, 0), (8, 0), (10, 0)]

/-- ROI A of the spec's example: a closed rectangle covering vertices 1, 2, 3. -/
def traceA : PathTrace := ⟨[(1, -2), (7, -2), (7, 2), (1, 2)], true, true⟩

/-- ROI B of the spec's example: a closed rectangle covering vertices 3, 4, 5. -/
def traceB : PathTrace := ⟨[(5, -2), (11, -2), (11, 2), (5, 2)], true, true⟩

/-! ## Trace-capture state machine, modelled from spec §4.4 -/

/-- Modelled from the spec: the error raised when a finalized (locked) trace
is mutated (spec §7). -/
inductive TraceError where
  | TraceAlreadyFinalized
deriving DecidableEq, Repr

/-- Modelled from the spec: the states of a trace-capture session,
{Empty, Open, Finalized} (spec §4.4), each carrying its point sequence and,
once finalized, the closed flag. -/
inductive TraceState where
  | empty : TraceState
  | opened : List Point → TraceState
  | finalized : List Point → Bool → TraceState
deriving DecidableEq, Repr

/-- The point sequence carried by a trace state. -/
def TraceState.pointsOf : TraceState → List Point
  | .empty => []
  | .opened pts => pts
  | .finalized pts _ => pts

/-- Modelled from the spec: a click appends a point; Empty moves to Open on
the first point; a point-add on a Finalized trace fails with
`TraceAlreadyFinalized` (spec §4.4). -/
def addPoint (p : Point) : TraceState → Except TraceError TraceState
  | .empty => .ok (.opened [p])
  | .opened pts => .ok (.opened (pts ++ [p]))
  | .finalized _ _ => .error .TraceAlreadyFinalized

/-- Modelled from the spec: SHIFT-click removes the previously clicked point;
removal on a Finalized trace fails with `TraceAlreadyFinalized`. -/
def removePoint : TraceState → Except TraceError TraceState
  | .empty => .ok .empty
  | .opened pts =>
      .ok (match pts.dropLast with
           | [] => .empty
           | q :: qs => .opened (q :: qs))
  | .finalized _ _ => .error .TraceAlreadyFinalized

/-- Modelled from the spec: the finalize action (CTRL-click) — when the trace
is to be closed it appends a terminating point equal to the first point, then
locks the point sequence (spec §4.4); finalizing twice fails with
`TraceAlreadyFinalized`. -/
def finalize (closed : Bool) : TraceState → Except TraceError TraceState
  | .empty => .ok (.finalized [] closed)
  | .opened pts => .ok (.finalized (if closed then pts ++ pts.take 1 else pts) closed)
  | .finalized _ _ => .error .TraceAlreadyFinalized

/-! ## Serializable trace record, modelled from spec §6 -/

/-- Modelled from the spec: the enumerated projection kinds (spec §3,
"Projection"). -/
inductive ProjectionKind where
  | orthogonal
  | equirectangular
  | mercator
deriving DecidableEq, Repr

/-- Modelled from the spec: the parameters of the flatmap projection that
produced a trace's flatmap — center point, reference direction, kind, and
angular radius (spec §3, "Projection"). -/
structure MapProjection where
  center : ℚ × ℚ × ℚ
  refDirection : ℚ × ℚ × ℚ
  kind : ProjectionKind
  radius : ℚ
deriving DecidableEq, Repr

/-- A finalized trace as persisted: its points and its closed flag. -/
structure FinalizedTrace where
  points : List Point
  closed : Bool
deriving DecidableEq, Repr

/-- A JSON-compatible value — the codomain of the serializer (spec §6:
the trace record is a JSON-compatible structure). -/
inductive Json where
  | num : ℚ → Json
  | bool : Bool → Json
  | str : String → Json
  | arr : List Json → Json
  | obj : List (String × Json) → Json

/-- Encode one clicked point as a two-element JSON array. -/
def encPoint (p : Point) : Json := .arr [.num (p.1 : ℚ), .num (p.2 : ℚ)]

/-- Decode one clicked point; clicked pixels are integral, so a non-integral
number is rejected. -/
def decPoint : Json → Option Point
  | .arr [.num x, .num y] =>
      if x.den = 1 ∧ y.den = 1 then some (x.num, y.num) else none
  | _ => none

/-- Decode a list of encoded points, failing if any element fails. -/
def decPointList : List Json → Option (List Point)
  | [] => some []
  | j :: js =>
      match decPoint j, decPointList js with
      | some p, some ps => some (p :: ps)
      | _, _ => none

/-- Encode a 3D rational vector as a three-element JSON array. -/
def encVec3 (v : ℚ × ℚ × ℚ) : Json := .arr [.num v.1, .num v.2.1, .num v.2.2]

/-- Decode a 3D rational vector. -/
def decVec3 : Json → Option (ℚ × ℚ × ℚ)
  | .arr [.num a, .num b, .num c] => some (a, b, c)
  | _ => none

/-- Encode a projection kind as its JSON string name. -/
def encKind : ProjectionKind → Json
  | .orthogonal => .str "orthogonal"
  | .equirectangular => .str "equirectangular"
  | .mercator => .str "mercator"

/-- Decode a projection kind from its JSON string name. -/
def decKind : Json → Option ProjectionKind
  | .str "orthogonal" => some .orthogonal
  | .str "equirectangular" => some .equirectangular
  | .str "mercator" => some .mercator
  | _ => none

/-- Modelled from the spec: serialize a finalized trace together with its
originating projection parameters into the JSON trace record
`{points, closed, projection_params}` (spec §6). -/
def encTraceRecord (tr : FinalizedTrace) (proj : MapProjection) : Json :=
  .obj [("points", .arr (tr.points.map encPoint)),
        ("closed", .bool tr.closed),
        ("projection_params",
          .obj [("center", encVec3 proj.center),
                ("ref_direction", encVec3 proj.refDirection),
                ("kind", encKind proj.kind),
                ("radius", .num proj.radius)])]

/-- Modelled from the spec: deserialize a JSON trace record back into the
trace and its projection parameters (the notebook's
`traces = ny.load('traces.json')` reconstruction). -/
def decTraceRecord : Json → Option (FinalizedTrace × MapProjection)
  | .obj [("points", .arr pjs),
          ("closed", .bool c),
          ("projection_params",
            .obj [("center", cj), ("ref_direction", rj), ("kind", kj),
                  ("radius", .num rad)])] =>
      match decPointList pjs, decVec3 cj, decVec3 rj, decKind kj with
      | some ps, some ctr, some refd, some k =>
          some (⟨ps, c⟩, ⟨ctr, refd, k, rad⟩)
      | _, _, _, _ => none
  | _ => none

/-! ## Mask specification, `(property, min, max)` form, modelled from the
`to_mask` documentation quoted in the plotting-3D notebook -/

/-- Modelled from the spec: the `(property, min, max)` mask form of `to_mask`
— it selects exactly the vertex indices whose property value `v` satisfies
`min < v ≤ max` (notebook docstring: "the property must be between min and
max for a vertex to be included (min < p <= max)"). -/
def to_mask_range (prop : List ℚ) (mn mx : ℚ) : List ℕ :=
  (List.range prop.length).filter fun i =>
    decide (mn < prop.getD i 0 ∧ prop.getD i 0 ≤ mx)

/-! ## Tessellation topology, modelled from spec §3 and §4.1 -/

/-- The unordered vertex pair of an edge, normalized with the smaller label
first so that each unordered pair has one representative. -/
def sortPair (a b : ℕ) : ℕ × ℕ := if a ≤ b then (a, b) else (b, a)

/-- The three sides of a triangular face, as normalized unordered pairs. -/
def faceSides (f : ℕ × ℕ × ℕ) : List (ℕ × ℕ) :=
  [sortPair f.1 f.2.1, sortPair f.2.1 f.2.2, sortPair f.2.2 f.1]

/-- Every side of every face, with multiplicity. -/
def allSides (faces : List (ℕ × ℕ × ℕ)) : List (ℕ × ℕ) :=
  faces.flatMap faceSides

/-- Modelled from the spec: the deduplicated edge set of a face list — each
unordered pair appearing once (spec §3, "edge array (2×Q matrix, each
unordered pair appearing once)"; §4.1 "the deduplicated edge set"). -/
def edges (faces : List (ℕ × ℕ × ℕ)) : List (ℕ × ℕ) :=
  (allSides faces).dedup

/-- The number of faces an edge appears in as a side, with multiplicity. -/
def sideCount (faces : List (ℕ × ℕ × ℕ)) (e : ℕ × ℕ) : ℕ :=
  (allSides faces).count e

/-- The tessellation's edge count `Q`. -/
def edge_count (faces : List (ℕ × ℕ × ℕ)) : ℕ := (edges faces).length

/-- The tessellation's face count `M`. -/
def face_count (faces : List (ℕ × ℕ × ℕ)) : ℕ := faces.length

/-- The number of shared (interior) edges — edges appearing as a side of two
faces. -/
def sharedCount (faces : List (ℕ × ℕ × ℕ)) : ℕ :=
  ((edges faces).filter fun e => decide (sideCount faces e = 2)).length

/-- The deduplicated vertex labels referenced by a face list. -/
def vertexList (faces : List (ℕ × ℕ × ℕ)) : List ℕ :=
  (faces.flatMap fun f => [f.1, f.2.1, f.2.2]).dedup

/-- The tessellation's vertex count `N`. -/
def vertex_count (faces : List (ℕ × ℕ × ℕ)) : ℕ := (vertexList faces).length

/-- The Euler characteristic `V - E + F` of a face list. -/
def eulerChar (faces : List (ℕ × ℕ × ℕ)) : ℤ :=
  (vertex_count faces : ℤ) - (edge_count faces : ℤ) + (face_count faces : ℤ)

/-- Manifold-sidedness: no edge is shared by more than two faces
(spec §4.1's NonManifoldGeometry condition excluded). -/
def manifoldSides (faces : List (ℕ × ℕ × ℕ)) : Prop :=
  ∀ e ∈ edges faces, sideCount faces e ≤ 2

/-- A closed (boundary-free) mesh: every edge is a side of exactly two faces. -/
def closedMesh (faces : List (ℕ × ℕ × ℕ)) : Prop :=
  ∀ e ∈ edges faces, sideCount faces e = 2

/-- Nondegeneracy: each face's three vertex labels are pairwise distinct
(spec §3: "every face's three vertices must pairwise appear as edges"). -/
def nondegenerate (faces : List (ℕ × ℕ × ℕ)) : Prop :=
  ∀ f ∈ faces, f.1 ≠ f.2.1 ∧ f.2.1 ≠ f.2.2 ∧ f.2.2 ≠ f.1

/-- The tetrahedron's face list — the smallest closed triangle mesh. -/
def tetraFaces : List (ℕ × ℕ × ℕ) := [(0, 1, 2), (0, 2, 3), (0, 3, 1), (1, 3, 2)]

/-- Two disjoint tetrahedra: a closed mesh that is not a topological sphere. -/
def twoTetraFaces : List (ℕ × ℕ × ℕ) :=
  tetraFaces ++ [(4, 5, 6), (4, 6, 7), (4, 7, 5), (5, 7, 6)]

/-- The vertex, edge, and face counts of the tutorial hemisphere
(`Tesselation(<266202 faces>, <133103 vertices>)`, `tess.edge_count == 399303`). -/
def tutorialCounts : ℕ × ℕ × ℕ := (133103, 399303, 266202)

/-! ## Tessellation objects and sub-mesh restriction, modelled from spec §3 -/

/-- Modelled from the spec: a tessellation — the list of vertex labels (for a
full mesh, `range N`; for a sub-mesh, the retained parent labels) and the face
list in label space (spec §3, "Tessellation"). -/
structure Tesselation where
  labels : List ℕ
  faces : List (ℕ × ℕ × ℕ)
deriving DecidableEq, Repr

/-- A full (non-sub) tessellation: the label space is exactly `0..n-1`. -/
def fullTess (n : ℕ) (faces : List (ℕ × ℕ × ℕ)) : Tesselation :=
  ⟨List.range n, faces⟩

/-- Modelled from the spec: restriction of a tessellation to a vertex subset
`S` — keep only faces whose three vertices are all in `S`; the sub-mesh's
label list is `S` itself, so labels keep referring to the parent's vertex
label space (spec §4.1 restriction, §3 sub-mesh paragraph). -/
def subTess (t : Tesselation) (S : List ℕ) : Tesselation :=
  ⟨S, t.faces.filter fun f =>
      decide (f.1 ∈ S) && decide (f.2.1 ∈ S) && decide (f.2.2 ∈ S)⟩

/-- Modelled from the spec: the index-space face representation — each vertex
label replaced by its position in the tessellation's own label list, so
entries index the sub-mesh's coordinate and property arrays (the notebook's
`tess.indexed_faces`). -/
def indexed_faces (t : Tesselation) : List (ℕ × ℕ × ℕ) :=
  t.faces.map fun f =>
    (t.labels.indexOf f.1, t.labels.indexOf f.2.1, t.labels.indexOf f.2.2)

/-! ## Vertex neighborhoods by fan walking, modelled from spec §4.1 -/

/-- The ordered pair of neighbor labels a face contributes around the vertex
`v`, following the face's winding order (for face `(a,b,c)` and `v = a`, the
pair `(b, c)`); `none` when the face is not incident to `v`. -/
def pairAt (v : ℕ) (f : ℕ × ℕ × ℕ) : Option (ℕ × ℕ) :=
  if v = f.1 then some (f.2.1, f.2.2)
  else if v = f.2.1 then some (f.2.2, f.1)
  else if v = f.2.2 then some (f.1, f.2.1)
  else none

/-- The neighbor pairs contributed by all faces incident to `v`. -/
def vertexPairs (faces : List (ℕ × ℕ × ℕ)) (v : ℕ) : List (ℕ × ℕ) :=
  faces.filterMap (pairAt v)

/-- The faces incident to the vertex `v`. -/
def incidentFaces (faces : List (ℕ × ℕ × ℕ)) (v : ℕ) : List (ℕ × ℕ × ℕ) :=
  faces.filter fun f => (pairAt v f).isSome

/-- Modelled from the spec: the fan walk (spec §4.1) — from the current
target neighbor `t`, find the unconsumed incident pair starting at `t`,
record `t`, and continue with that pair's other endpoint; the fan closes when
all pairs are consumed and the walk has returned to `start`.  The fuel equals
the number of remaining pairs, which the walk consumes one per step. -/
def fanGo (start : ℕ) : ℕ → ℕ → List (ℕ × ℕ) → List ℕ → Option (List ℕ)
  | _, t, [], acc => if t = start then some acc.reverse else none
  | 0, _, _ :: _, _ => none
  | fuel + 1, t, r :: rs, acc =>
      match (r :: rs).find? (fun pr => pr.1 == t) with
      | none => none
      | some pr => fanGo start fuel pr.2 ((r :: rs).erase pr) (pr.1 :: acc)

/-- Modelled from the spec: the counter-clockwise neighborhood of `v` — the
single cyclic sequence produced by walking the fan of incident faces via
shared-edge adjacency, starting from an arbitrary incident face (spec §4.1);
`none` when the fan does not close into a single cycle (boundary or
non-manifold vertex). -/
def fanWalk (faces : List (ℕ × ℕ × ℕ)) (v : ℕ) : Option (List ℕ) :=
  match vertexPairs faces v with
  | [] => some []
  | (a, b) :: rest => fanGo a rest.length b rest [a]

/-- Modelled from the spec: `tess.neighborhoods` at one vertex. -/
def neighborhoods (faces : List (ℕ × ℕ × ℕ)) (v : ℕ) : Option (List ℕ) :=
  fanWalk faces v

/-- The vertices sharing an edge with `v`, read off the deduplicated edge
array. -/
def edgeNeighbors (faces : List (ℕ × ℕ × ℕ)) (v : ℕ) : List ℕ :=
  (edges faces).filterMap fun e =>
    if e.1 = v then some e.2 else if e.2 = v then some e.1 else none

instance (faces : List (ℕ × ℕ × ℕ)) : Decidable (manifoldSides faces) := by
  unfold manifoldSides; infer_instance

instance (faces : List (ℕ × ℕ × ℕ)) : Decidable (closedMesh faces) := by
  unfold closedMesh; infer_instance

instance (faces : List (ℕ × ℕ × ℕ)) : Decidable (nondegenerate faces) := by
  unfold nondegenerate; infer_instance

/-! ## Lemmas: the label merger computes first-writer-wins labels -/

theorem zip_map_self (g : Option Point → ℕ) (coords : List (Option Point)) :
    (coords.map g).zip coords = coords.map fun c => (g c, c) := by
  have h := List.zip_map' g id coords
  simpa using h

theorem labelStep_map (coords : List (Option Point)) (ord : ℕ) (tr : PathTrace)
    (g : Option Point → ℕ) :
    labelStep coords ord tr (coords.map g) =
      coords.map fun oc => if g oc = 0 ∧ vertexInside tr oc = true then ord else g oc := by
  unfold labelStep
  rw [zip_map_self, List.map_map]
  rfl

theorem mergeFrom_map (coords : List (Option Point)) (rois : List PathTrace) :
    ∀ (ord : ℕ) (g : Option Point → ℕ), 0 < ord →
      mergeFrom coords ord rois (coords.map g) =
        coords.map fun oc =>
          if g oc ≠ 0 then g oc
          else if (rois.findIdx fun tr => vertexInside tr oc) < rois.length
            then ord + (rois.findIdx fun tr => vertexInside tr oc) else 0 := by
  induction rois with
  | nil =>
      intro ord g _
      show coords.map g = _
      apply List.map_congr_left
      intro oc _
      by_cases h0 : g oc = 0 <;> simp [h0]
  | cons tr rest ih =>
      intro ord g hord
      show mergeFrom coords (ord + 1) rest (labelStep coords ord tr (coords.map g)) = _
      rw [labelStep_map, ih (ord + 1) _ (by omega)]
      apply List.map_congr_left
      intro oc _
      rw [List.findIdx_cons]
      cases hin : vertexInside tr oc <;> by_cases h0 : g oc = 0 <;>
        simp [h0, hin, Nat.succ_lt_succ_iff] <;> split_ifs <;> omega

/-- The label merger is pointwise the first-writer-wins label. -/
theorem paths_to_labels_eq_map (coords : List (Option Point)) (rois : List PathTrace) :
    paths_to_labels coords rois = coords.map (firstWriterLabel (participating rois)) := by
  unfold paths_to_labels
  have hrep : List.replicate coords.length (0 : ℕ) = coords.map fun _ => 0 :=
    (List.map_const' coords 0).symm
  rw [hrep, mergeFrom_map coords (participating rois) 1 _ (by omega)]
  apply List.map_congr_left
  intro oc _
  simp only [ne_eq, not_true_eq_false, if_false, firstWriterLabel]
  by_cases hj :
      ((participating rois).findIdx fun tr => vertexInside tr oc) < (participating rois).length
  · rw [if_pos hj, if_pos hj]
    omega
  · rw [if_neg hj, if_neg hj]

/-- When a predicate holds nowhere on a list, `findIdx` returns the length. -/
theorem findIdx_of_forall_false {α : Type} (p : α → Bool) (l : List α)
    (h : ∀ x ∈ l, p x = false) : l.findIdx p = l.length := by
  induction l with
  | nil => rfl
  | cons a t ih =>
      simp [List.findIdx_cons, h a (by simp), ih fun x hx => h x (by simp [hx])]

/-- When the earliest match lies in the first list, `findIdx` ignores the
appended tail. -/
theorem findIdx_append_left {α : Type} (p : α → Bool) (l₁ l₂ : List α)
    (h : l₁.findIdx p < l₁.length) : (l₁ ++ l₂).findIdx p = l₁.findIdx p := by
  induction l₁ with
  | nil => simp at h
  | cons a t ih =>
      cases hpa : p a
      · simp only [List.findIdx_cons, hpa, cond_false, List.length_cons] at h ⊢
        rw [List.cons_append]  -- no-op positionally; keeps the shape explicit
        simp only [List.findIdx_cons, hpa, cond_false]
        rw [ih (by omega)]
      · simp [List.cons_append, List.findIdx_cons, hpa]

/-- C1: first writer wins in `paths_to_labels`.  Part 1: the merged labels are
exactly `firstWriterLabel` — each vertex receives one plus the position of the
EARLIEST participating ROI whose polygon contains it (so a vertex inside
several ROI polygons gets the earliest ROI's ordinal).  Part 2: once a vertex
has a non-zero label from the ROIs processed so far, appending further ROIs to
the ordering leaves its label unchanged (no later-ordered ROI overwrites it). -/
theorem paths_to_labels_first_writer_wins :
    (∀ (coords : List (Option Point)) (rois : List PathTrace),
      paths_to_labels coords rois = coords.map (firstWriterLabel (participating rois))) ∧
    (∀ (pre post : List PathTrace) (oc : Option Point),
      firstWriterLabel (participating pre) oc ≠ 0 →
      firstWriterLabel (participating (pre ++ post)) oc =
        firstWriterLabel (participating pre) oc) := by
  refine ⟨paths_to_labels_eq_map, ?_⟩
  intro pre post oc hnz
  have hsplit : participating (pre ++ post) = participating pre ++ participating post := by
    simp [participating]
  unfold firstWriterLabel at hnz ⊢
  by_cases hj :
      ((participating pre).findIdx fun tr => vertexInside tr oc) < (participating pre).length
  · rw [hsplit, findIdx_append_left _ _ _ hj]
    rw [if_pos hj, if_pos (by simp only [List.length_append]; omega)]
  · rw [if_neg hj] at hnz
    exact absurd rfl hnz

/-- Witness for C1: with ROI A alone, vertex 1 of the example mesh is labeled
(ordinal 1); appending ROI B, whose polygon also covers part of the mesh,
leaves that label unchanged. -/
theorem paths_to_labels_first_writer_wins_witness :
    firstWriterLabel (participating [traceA]) (some (2, 0)) ≠ 0 ∧
    firstWriterLabel (participating ([traceA] ++ [traceB])) (some (2, 0)) =
      firstWriterLabel (participating [traceA]) (some (2, 0)) :=
  ⟨by decide, paths_to_labels_first_writer_wins.2 [traceA] [traceB] (some (2, 0)) (by decide)⟩

/-- C2: the spec's concrete label-merge example — vertices 0..5 along a line,
ROI A's polygon covering vertices 1, 2, 3 and ROI B's covering 3, 4, 5; the
merge in order [A, B] yields exactly [0, 1, 1, 1, 2, 2].  Vertex 3 (at
coordinate (6,0)) lies inside B's polygon as well, yet keeps A's label 1 and
never receives B's ordinal. -/
theorem paths_to_labels_example :
    paths_to_labels (exampleCoords.map some) [traceA, traceB] = [0, 1, 1, 1, 2, 2] ∧
    vertexInside traceB (some (6, 0)) = true ∧
    (paths_to_labels (exampleCoords.map some) [traceA, traceB]).getD 3 0 = 1 := by
  refine ⟨by decide, by decide, by decide⟩

/-- C9: labeling a full target mesh from traces captured on a flatmap covering
only part of it — the result has one integer entry per vertex of the target,
and every vertex with no flatmap coordinate (outside the projected region)
receives the background label 0. -/
theorem paths_to_labels_full_target (coords : List (Option Point)) (rois : List PathTrace) :
    (paths_to_labels coords rois).length = coords.length ∧
    ∀ (i : ℕ) (h : i < coords.length), coords.get ⟨i, h⟩ = none →
      (paths_to_labels coords rois).getD i 0 = 0 := by
  have heq := paths_to_labels_eq_map coords rois
  constructor
  · rw [heq, List.length_map]
  · intro i h hnone
    have hmap : (List.map (firstWriterLabel (participating rois)) coords).getD i 0 =
        firstWriterLabel (participating rois) (coords.get ⟨i, h⟩) := by
      rw [List.getD_eq_getElem?_getD, List.getElem?_eq_getElem (by simpa using h)]
      simp [List.getElem_map]
    rw [heq, hmap, hnone]
    unfold firstWriterLabel
    have hall : ((participating rois).findIdx fun tr => vertexInside tr none) =
        (participating rois).length :=
      findIdx_of_forall_false _ _ fun tr _ => rfl
    rw [hall, if_neg (by omega)]

/-- Witness for C9: a two-vertex target whose second vertex has no flatmap
coordinate receives background label 0 there. -/
theorem paths_to_labels_full_target_witness :
    (1 : ℕ) < ([some ((0 : ℤ), (0 : ℤ)), none] : List (Option Point)).length ∧
    (paths_to_labels [some ((0 : ℤ), (0 : ℤ)), none] [traceA]).getD 1 0 = 0 :=
  ⟨by decide,
   (paths_to_labels_full_target [some ((0 : ℤ), (0 : ℤ)), none] [traceA]).2 1 (by decide) rfl⟩

/-! ## The trace-capture state machine -/

/-- C3: the trace-capture session — from Empty, adding 3 points yields Open
with exactly those 3 points; finalizing with `closed = true` appends one
terminating point equal to the first point and moves to Finalized; and every
point-add on a Finalized trace fails with `TraceAlreadyFinalized`, producing
no new state, the finalized point sequence staying as it was. -/
theorem trace_state_machine (p₁ p₂ p₃ q : Point) :
    addPoint p₁ .empty = .ok (.opened [p₁]) ∧
    addPoint p₂ (.opened [p₁]) = .ok (.opened [p₁, p₂]) ∧
    addPoint p₃ (.opened [p₁, p₂]) = .ok (.opened [p₁, p₂, p₃]) ∧
    (TraceState.opened [p₁, p₂, p₃]).pointsOf.length = 3 ∧
    finalize true (.opened [p₁, p₂, p₃]) = .ok (.finalized [p₁, p₂, p₃, p₁] true) ∧
    (TraceState.finalized [p₁, p₂, p₃, p₁] true).pointsOf.getLast? =
      (TraceState.finalized [p₁, p₂, p₃, p₁] true).pointsOf.head? ∧
    ∀ (pts : List Point) (c : Bool),
      addPoint q (.finalized pts c) = .error .TraceAlreadyFinalized ∧
      (TraceState.finalized pts c).pointsOf = pts := by
  refine ⟨rfl, rfl, rfl, rfl, rfl, rfl, fun pts c => ⟨rfl, rfl⟩⟩

/-! ## JSON trace-record round trip -/

theorem decPointList_enc (ps : List Point) : decPointList (ps.map encPoint) = some ps := by
  induction ps with
  | nil => rfl
  | cons p t ih => simp [decPointList, encPoint, decPoint, ih]

/-- C8: serializing a finalized trace together with its originating projection
parameters into the JSON trace record `{points, closed, projection_params}`
and deserializing that record yields back an equal trace and equal projection
parameters (same points, closed flag, center, reference direction, kind, and
radius), so it can be replotted against the same flatmap. -/
theorem trace_record_round_trip (tr : FinalizedTrace) (proj : MapProjection) :
    decTraceRecord (encTraceRecord tr proj) = some (tr, proj) := by
  obtain ⟨pts, c⟩ := tr
  obtain ⟨ctr, refd, k, rad⟩ := proj
  cases k <;>
    simp [encTraceRecord, decTraceRecord, decPointList_enc, encVec3, decVec3, encKind, decKind]

/-! ## The (property, min, max) mask form -/

/-- C4: the `(property, min, max)` mask selects exactly the vertex indices
whose property value `v` satisfies `min < v ≤ max`; in particular a vertex
whose value equals `min` is excluded and one whose value equals `max`
(with `min < max`) is included. -/
theorem to_mask_range_spec (prop : List ℚ) (mn mx : ℚ) (i : ℕ) (h : i < prop.length) :
    (i ∈ to_mask_range prop mn mx ↔ mn < prop.get ⟨i, h⟩ ∧ prop.get ⟨i, h⟩ ≤ mx) ∧
    (prop.get ⟨i, h⟩ = mn → i ∉ to_mask_range prop mn mx) ∧
    (prop.get ⟨i, h⟩ = mx → mn < mx → i ∈ to_mask_range prop mn mx) := by
  have hg : prop.getD i 0 = prop.get ⟨i, h⟩ := by
    rw [List.getD_eq_getElem?_getD, List.getElem?_eq_getElem h]
    rfl
  have hmem : i ∈ to_mask_range prop mn mx ↔ mn < prop.get ⟨i, h⟩ ∧ prop.get ⟨i, h⟩ ≤ mx := by
    unfold to_mask_range
    rw [List.mem_filter, List.mem_range]
    simp [h, hg]
  refine ⟨hmem, ?_, ?_⟩
  · intro hval hin
    have := hmem.mp hin
    rw [hval] at this
    exact absurd this.1 (lt_irrefl mn)
  · intro hval hlt
    exact hmem.mpr ⟨by rw [hval]; exact hlt, by rw [hval]⟩

/-- Witness for C4: in the property list [0, 1, 2] with bounds (0, 2], index 1
(value 1) is selected, index 0 (value equal to the min bound) is not, and
index 2 (value equal to the max bound) is. -/
theorem to_mask_range_spec_witness :
    (1 : ℕ) < ([(0 : ℚ), 1, 2] : List ℚ).length ∧
    1 ∈ to_mask_range [0, 1, 2] 0 2 ∧
    0 ∉ to_mask_range [0, 1, 2] 0 2 ∧
    2 ∈ to_mask_range [0, 1, 2] 0 2 :=
  ⟨by decide,
   (to_mask_range_spec [0, 1, 2] 0 2 1 (by decide)).1.mpr (by decide),
   (to_mask_range_spec [0, 1, 2] 0 2 0 (by decide)).2.1 (by decide),
   (to_mask_range_spec [0, 1, 2] 0 2 2 (by decide)).2.2 (by decide) (by decide)⟩

/-! ## Sub-tessellation label/index consistency -/

theorem indexOf_range' : ∀ (n s i : ℕ), i < n → (List.range' s n).indexOf (s + i) = i := by
  intro n
  induction n with
  | zero => intro s i h; omega
  | succ m ih =>
      intro s i h
      rw [List.range'_succ]
      cases i with
      | zero => simp [List.indexOf_cons]
      | succ j =>
          have harg : s + (j + 1) = (s + 1) + j := by omega
          simp only [List.indexOf_cons]
          rw [harg, ih (s + 1) j (by omega)]
          have hcond : (s == s + 1 + j) = false := by
            simp only [beq_eq_false_iff_ne, ne_eq]
            omega
          simp [hcond]

theorem indexOf_range (n i : ℕ) (h : i < n) : (List.range n).indexOf i = i := by
  have := indexOf_range' n 0 i h
  simpa [List.range_eq_range'] using this

/-- C5: consistency of the two face representations.  For a restriction to a
vertex subset `S`: every entry of `indexed_faces` is an index below `|S|`
(a valid index into the sub-mesh's own arrays); every entry of `faces` is a
label of the parent's vertex label space; and for a full (non-sub) mesh the
two representations coincide. -/
theorem tess_sub_index_consistency :
    (∀ (t : Tesselation) (S : List ℕ), ∀ f ∈ indexed_faces (subTess t S),
        f.1 < S.length ∧ f.2.1 < S.length ∧ f.2.2 < S.length) ∧
    (∀ (t : Tesselation) (S : List ℕ), (∀ x ∈ S, x ∈ t.labels) →
        ∀ f ∈ (subTess t S).faces,
          f.1 ∈ t.labels ∧ f.2.1 ∈ t.labels ∧ f.2.2 ∈ t.labels) ∧
    (∀ (n : ℕ) (faces : List (ℕ × ℕ × ℕ)),
        (∀ f ∈ faces, f.1 < n ∧ f.2.1 < n ∧ f.2.2 < n) →
        indexed_faces (fullTess n faces) = (fullTess n faces).faces) := by
  refine ⟨?_, ?_, ?_⟩
  · intro t S f hf
    unfold indexed_faces at hf
    obtain ⟨g, hg, hgf⟩ := List.mem_map.mp hf
    have hmem : (g.1 ∈ S ∧ g.2.1 ∈ S) ∧ g.2.2 ∈ S := by
      have := (List.mem_filter.mp hg).2
      simpa using this
    subst hgf
    exact ⟨List.indexOf_lt_length.mpr hmem.1.1, List.indexOf_lt_length.mpr hmem.1.2,
           List.indexOf_lt_length.mpr hmem.2⟩
  · intro t S hS f hf
    have hf' : f ∈ t.faces.filter fun f =>
        decide (f.1 ∈ S) && decide (f.2.1 ∈ S) && decide (f.2.2 ∈ S) := hf
    have hmem := (List.mem_filter.mp hf').2
    simp only [Bool.and_eq_true, decide_eq_true_eq] at hmem
    exact ⟨hS _ hmem.1.1, hS _ hmem.1.2, hS _ hmem.2⟩
  · intro n faces hb
    show faces.map _ = faces
    have hl : (fullTess n faces).labels = List.range n := rfl
    simp only [hl]
    have hpt : ∀ f ∈ faces,
        ((List.range n).indexOf f.1, (List.range n).indexOf f.2.1,
          (List.range n).indexOf f.2.2) = id f := by
      intro f hf
      obtain ⟨h1, h2, h3⟩ := hb f hf
      rw [indexOf_range _ _ h1, indexOf_range _ _ h2, indexOf_range _ _ h3]
      rfl
    rw [List.map_congr_left hpt, List.map_id]

/-- Witness for C5: restricting the tetrahedron's tessellation to the subset
[0, 1, 2] keeps the single face (0, 1, 2); its indexed entries are below 3,
its label entries are parent labels, and on the full tetrahedron the two face
representations coincide. -/
theorem tess_sub_index_consistency_witness :
    ((0, 1, 2) : ℕ × ℕ × ℕ).1 < ([0, 1, 2] : List ℕ).length ∧
    ((0, 1, 2) : ℕ × ℕ × ℕ).1 ∈ (fullTess 4 tetraFaces).labels ∧
    indexed_faces (fullTess 4 tetraFaces) = (fullTess 4 tetraFaces).faces :=
  ⟨(tess_sub_index_consistency.1 (fullTess 4 tetraFaces) [0, 1, 2] (0, 1, 2) (by decide)).1,
   (tess_sub_index_consistency.2.1 (fullTess 4 tetraFaces) [0, 1, 2] (by decide)
      (0, 1, 2) (by decide)).1,
   tess_sub_index_consistency.2.2 4 tetraFaces (by decide)⟩

/-! ## Edge counting for manifold and closed meshes -/

theorem sortPair_le (a b : ℕ) : (sortPair a b).1 ≤ (sortPair a b).2 := by
  unfold sortPair
  split <;> simp <;> omega

theorem sortPair_comm (a b : ℕ) : sortPair a b = sortPair b a := by
  unfold sortPair
  split <;> split <;> simp_all [Prod.ext_iff] <;> omega

theorem sortPair_eq_iff (x y a b : ℕ) :
    sortPair x y = sortPair a b ↔ ((x = a ∧ y = b) ∨ (x = b ∧ y = a)) := by
  unfold sortPair
  split <;> split <;> simp [Prod.ext_iff] <;> omega

theorem sortPair_ne (a b : ℕ) (h : a ≠ b) : (sortPair a b).1 ≠ (sortPair a b).2 := by
  unfold sortPair
  split <;> simp <;> omega

/-- Counting with the product's structural `BEq` agrees with counting with the
`BEq` derived from decidable equality. -/
theorem count_beq_congr (a : ℕ × ℕ) (l : List (ℕ × ℕ)) :
    @List.count (ℕ × ℕ) instBEqProd a l = @List.count (ℕ × ℕ) instBEqOfDecidableEq a l := by
  induction l with
  | nil => rfl
  | cons x t ih =>
      rw [@List.count_cons (ℕ × ℕ) instBEqProd, @List.count_cons (ℕ × ℕ) instBEqOfDecidableEq,
        ih]
      by_cases hxa : x = a
      · subst hxa
        simp [instBEqOfDecidableEq]
      · simp [instBEqOfDecidableEq, hxa]

theorem allSides_length (faces : List (ℕ × ℕ × ℕ)) :
    (allSides faces).length = 3 * faces.length := by
  induction faces with
  | nil => rfl
  | cons f t ih =>
      show (faceSides f ++ allSides t).length = _
      simp only [List.length_append, ih, faceSides, List.length_cons]
      simp [List.length_cons]
      omega

theorem sum_map_of_one_or_two {α : Type} [DecidableEq α] (l : List α) (f : α → ℕ)
    (h : ∀ x ∈ l, f x = 1 ∨ f x = 2) :
    (l.map f).sum = l.length + (l.filter fun x => decide (f x = 2)).length := by
  induction l with
  | nil => rfl
  | cons a t ih =>
      have ha := h a (by simp)
      have ht := ih fun x hx => h x (by simp [hx])
      rcases ha with h1 | h2
      · simp [h1, ht, List.filter_cons]
        omega
      · simp [h2, ht, List.filter_cons]
        omega

theorem sum_map_of_all_two {α : Type} (l : List α) (f : α → ℕ)
    (h : ∀ x ∈ l, f x = 2) : (l.map f).sum = 2 * l.length := by
  induction l with
  | nil => rfl
  | cons a t ih =>
      have ht := ih fun x hx => h x (by simp [hx])
      simp [h a (by simp), ht]
      omega

/-- C6: for a valid mesh (no edge shared by more than two faces), the edge
array lists each unordered vertex pair exactly once, every edge appears as a
side of exactly 1 face (boundary edge) or exactly 2 faces (interior edge), and
the edge count equals three times the face count minus the shared-edge count. -/
theorem tess_edge_counting (faces : List (ℕ × ℕ × ℕ)) (h : manifoldSides faces) :
    (edges faces).Nodup ∧
    (∀ e ∈ edges faces, sideCount faces e = 1 ∨ sideCount faces e = 2) ∧
    edge_count faces = 3 * face_count faces - sharedCount faces := by
  have h12 : ∀ e ∈ edges faces, sideCount faces e = 1 ∨ sideCount faces e = 2 := by
    intro e he
    have hpos : 0 < sideCount faces e :=
      List.count_pos_iff.mpr (List.mem_dedup.mp he)
    have hle := h e he
    omega
  have hsum : ((edges faces).map fun e => sideCount faces e).sum = (allSides faces).length := by
    unfold sideCount edges
    have hfun : (fun e => @List.count (ℕ × ℕ) instBEqProd e (allSides faces)) =
        fun x => @List.count (ℕ × ℕ) instBEqOfDecidableEq x (allSides faces) :=
      funext fun a => count_beq_congr a (allSides faces)
    rw [hfun]
    exact List.sum_map_count_dedup_eq_length (allSides faces)
  have hsum2 := sum_map_of_one_or_two (edges faces) (fun e => sideCount faces e) h12
  have hbeta : ((edges faces).filter fun x => decide ((fun e => sideCount faces e) x = 2)) =
      ((edges faces).filter fun e => decide (sideCount faces e = 2)) := rfl
  rw [hbeta] at hsum2
  have hkey : (edges faces).length + sharedCount faces = 3 * faces.length := by
    have := allSides_length faces
    unfold sharedCount
    omega
  refine ⟨List.nodup_dedup _, h12, ?_⟩
  unfold edge_count face_count
  omega

/-- Witness for C6: the tetrahedron's tessellation — 6 edges, 4 faces, 6
shared edges, and 6 = 3 · 4 − 6. -/
theorem tess_edge_counting_witness :
    manifoldSides tetraFaces ∧
    edge_count tetraFaces = 3 * face_count tetraFaces - sharedCount tetraFaces :=
  ⟨by decide, (tess_edge_counting tetraFaces (by decide)).2.2⟩

/-- Counterexample for C10: the disjoint union of two tetrahedra is a closed
(boundary-free) triangle mesh satisfying 2·E = 3·F, yet its Euler
characteristic V − E + F is 4, not 2 — so "V − E + F = 2 for every closed
mesh" fails. -/
theorem closed_euler_counterexample :
    closedMesh twoTetraFaces ∧
    2 * edge_count twoTetraFaces = 3 * face_count twoTetraFaces ∧
    eulerChar twoTetraFaces ≠ 2 :=
  ⟨by decide, by decide, by decide⟩

/-- C10 (amended): for every closed (boundary-free) triangle mesh, twice the
edge count equals three times the face count (E = 3F/2); and the tutorial
hemisphere's recorded counts (133103 vertices, 399303 edges, 266202 faces)
satisfy both that edge equation and V − E + F = 2.  The Euler-characteristic
equation holds for the tutorial's sphere-topology hemisphere but not for every
closed mesh. -/
theorem closed_mesh_edge_relation (faces : List (ℕ × ℕ × ℕ)) (h : closedMesh faces) :
    2 * edge_count faces = 3 * face_count faces ∧
    2 * tutorialCounts.2.1 = 3 * tutorialCounts.2.2 ∧
    (tutorialCounts.1 : ℤ) - (tutorialCounts.2.1 : ℤ) + (tutorialCounts.2.2 : ℤ) = 2 := by
  refine ⟨?_, by decide, by decide⟩
  have hsum : ((edges faces).map fun e => sideCount faces e).sum = (allSides faces).length := by
    unfold sideCount edges
    have hfun : (fun e => @List.count (ℕ × ℕ) instBEqProd e (allSides faces)) =
        fun x => @List.count (ℕ × ℕ) instBEqOfDecidableEq x (allSides faces) :=
      funext fun a => count_beq_congr a (allSides faces)
    rw [hfun]
    exact List.sum_map_count_dedup_eq_length (allSides faces)
  have hall := sum_map_of_all_two (edges faces) (fun e => sideCount faces e) h
  have := allSides_length faces
  unfold edge_count face_count
  omega

/-- Witness for C10 (amended): the tetrahedron is closed and has 6 edges and
4 faces, with 2 · 6 = 3 · 4. -/
theorem closed_mesh_edge_relation_witness :
    closedMesh tetraFaces ∧ 2 * edge_count tetraFaces = 3 * face_count tetraFaces :=
  ⟨by decide, (closed_mesh_edge_relation tetraFaces (by decide)).1⟩

/-! ## The fan walk and vertex neighborhoods -/

theorem fanGo_nil (start fuel t : ℕ) (acc : List ℕ) :
    fanGo start fuel t [] acc = if t = start then some acc.reverse else none := by
  cases fuel <;> rfl

/-- Removing one occurrence of a present element is a permutation away from
re-consing it. -/
theorem perm_cons_erase_pair (pr : ℕ × ℕ) (l : List (ℕ × ℕ)) (h : pr ∈ l) :
    List.Perm l (pr :: l.erase pr) := by
  induction l with
  | nil => simp at h
  | cons x t ih =>
      by_cases hx : x = pr
      · subst hx
        rw [List.erase_cons_head]
      · rw [List.erase_cons_tail (by simp [hx])]
        have hpt : pr ∈ t := by
          rcases List.mem_cons.mp h with h' | h'
          · exact absurd h'.symm hx
          · exact h'
        exact ((ih hpt).cons x).trans (List.Perm.swap pr x _)

theorem fanGo_spec (start : ℕ) :
    ∀ (fuel : ℕ) (remaining : List (ℕ × ℕ)) (t : ℕ) (acc out : List ℕ),
      fanGo start fuel t remaining acc = some out →
      out.length = remaining.length + acc.length ∧
      (∀ u, u ∈ out ↔ u ∈ remaining.map Prod.fst ∨ u ∈ acc) ∧
      (∀ u, (u = t ∨ u ∈ remaining.map Prod.snd) → u ∈ remaining.map Prod.fst ∨ u = start) := by
  intro fuel
  induction fuel with
  | zero =>
      intro remaining t acc out hrun
      cases remaining with
      | nil =>
          rw [fanGo_nil] at hrun
          split at hrun
          · obtain rfl : acc.reverse = out := by injection hrun
            refine ⟨by simp, fun u => by simp, fun u hu => ?_⟩
            rcases hu with rfl | h'
            · right
              assumption
            · simp at h'
          · exact Option.noConfusion hrun
      | cons r rs => simp [fanGo] at hrun
  | succ fuel ih =>
      intro remaining t acc out hrun
      cases remaining with
      | nil =>
          rw [fanGo_nil] at hrun
          split at hrun
          · obtain rfl : acc.reverse = out := by injection hrun
            refine ⟨by simp, fun u => by simp, fun u hu => ?_⟩
            rcases hu with rfl | h'
            · right
              assumption
            · simp at h'
          · exact Option.noConfusion hrun
      | cons r rs =>
          simp only [fanGo] at hrun
          cases hf : (r :: rs).find? fun pr => pr.1 == t with
          | none => rw [hf] at hrun; exact Option.noConfusion hrun
          | some pr =>
              rw [hf] at hrun
              have hmem : pr ∈ r :: rs := List.mem_of_find?_eq_some hf
              have hfst : pr.1 = t := by
                have := List.find?_some hf
                simpa using this
              have hperm : List.Perm (r :: rs) (pr :: (r :: rs).erase pr) :=
                perm_cons_erase_pair pr (r :: rs) hmem
              have hlen_erase : ((r :: rs).erase pr).length + 1 = (r :: rs).length := by
                have := hperm.length_eq
                simpa using this.symm
              obtain ⟨ih1, ih2, ih3⟩ := ih ((r :: rs).erase pr) pr.2 (pr.1 :: acc) out hrun
              have hpf : ∀ u, u ∈ (r :: rs).map Prod.fst ↔
                  u = pr.1 ∨ u ∈ ((r :: rs).erase pr).map Prod.fst := by
                intro u
                have h' : u ∈ (r :: rs).map Prod.fst ↔
                    u ∈ (pr :: (r :: rs).erase pr).map Prod.fst :=
                  (hperm.map Prod.fst).mem_iff
                simpa using h'
              have hps : ∀ u, u ∈ (r :: rs).map Prod.snd ↔
                  u = pr.2 ∨ u ∈ ((r :: rs).erase pr).map Prod.snd := by
                intro u
                have h' : u ∈ (r :: rs).map Prod.snd ↔
                    u ∈ (pr :: (r :: rs).erase pr).map Prod.snd :=
                  (hperm.map Prod.snd).mem_iff
                simpa using h'
              refine ⟨?_, ?_, ?_⟩
              · simp only [List.length_cons] at ih1 hlen_erase ⊢
                omega
              · intro u
                rw [ih2 u, hpf u]
                simp only [List.mem_cons]
                tauto
              · intro u hu
                have hres : (u = pr.2 ∨ u ∈ ((r :: rs).erase pr).map Prod.snd) →
                    u ∈ (r :: rs).map Prod.fst ∨ u = start := by
                  intro h'
                  rcases ih3 u h' with hf' | hs'
                  · left
                    rw [hpf u]
                    right
                    exact hf'
                  · right
                    exact hs'
                rcases hu with rfl | hsnd
                · left
                  rw [← hfst]
                  exact List.mem_map.mpr ⟨pr, hmem, rfl⟩
                · exact hres ((hps u).mp hsnd)

theorem fanWalk_spec (faces : List (ℕ × ℕ × ℕ)) (v : ℕ) (cyc : List ℕ)
    (h : fanWalk faces v = some cyc) :
    cyc.length = (vertexPairs faces v).length ∧
    (∀ u, u ∈ cyc ↔ u ∈ (vertexPairs faces v).map Prod.fst) ∧
    (∀ u, u ∈ (vertexPairs faces v).map Prod.snd →
      u ∈ (vertexPairs faces v).map Prod.fst) := by
  unfold fanWalk at h
  cases hvp : vertexPairs faces v with
  | nil =>
      rw [hvp] at h
      obtain rfl : ([] : List ℕ) = cyc := by injection h
      refine ⟨by simp, fun u => by simp, fun u hu => by simp at hu⟩
  | cons ab rest =>
      obtain ⟨a, b⟩ := ab
      rw [hvp] at h
      obtain ⟨h1, h2, h3⟩ := fanGo_spec a rest.length rest b [a] cyc h
      refine ⟨by simpa using h1, ?_, ?_⟩
      · intro u
        rw [h2 u]
        simp only [List.map_cons, List.mem_cons, List.mem_singleton]
        tauto
      · intro u hu
        simp only [List.map_cons, List.mem_cons] at hu ⊢
        rcases hu with rfl | hu'
        · rcases h3 u (Or.inl rfl) with h' | h' <;> tauto
        · rcases h3 u (Or.inr hu') with h' | h' <;> tauto

theorem length_filterMap_isSome {α β : Type} (l : List α) (f : α → Option β) :
    (l.filterMap f).length = (l.filter fun a => (f a).isSome).length := by
  induction l with
  | nil => rfl
  | cons a t ih => cases hf : f a <;> simp [List.filterMap_cons, List.filter_cons, hf, ih]

theorem allSides_norm (faces : List (ℕ × ℕ × ℕ)) : ∀ e ∈ allSides faces, e.1 ≤ e.2 := by
  intro e he
  obtain ⟨f, _, hside⟩ := List.mem_flatMap.mp he
  simp only [faceSides, List.mem_cons, List.not_mem_nil, or_false] at hside
  rcases hside with h | h | h <;> subst h <;> exact sortPair_le _ _

theorem allSides_ne (faces : List (ℕ × ℕ × ℕ)) (hnd : nondegenerate faces) :
    ∀ e ∈ allSides faces, e.1 ≠ e.2 := by
  intro e he
  obtain ⟨f, hf, hside⟩ := List.mem_flatMap.mp he
  obtain ⟨h12, h23, h31⟩ := hnd f hf
  simp only [faceSides, List.mem_cons, List.not_mem_nil, or_false] at hside
  rcases hside with h | h | h <;> subst h
  · exact sortPair_ne _ _ h12
  · exact sortPair_ne _ _ h23
  · exact sortPair_ne _ _ h31

theorem mem_edgeNeighbors_iff (faces : List (ℕ × ℕ × ℕ)) (hnd : nondegenerate faces)
    (v u : ℕ) :
    u ∈ edgeNeighbors faces v ↔ (u ≠ v ∧ sortPair v u ∈ allSides faces) := by
  unfold edgeNeighbors
  rw [List.mem_filterMap]
  constructor
  · rintro ⟨e, he, hsome⟩
    have heall : e ∈ allSides faces := List.mem_dedup.mp he
    have hne0 : e.1 ≠ e.2 := allSides_ne faces hnd e heall
    have hnorm : e.1 ≤ e.2 := allSides_norm faces e heall
    have hpair : sortPair e.1 e.2 = e := by
      unfold sortPair
      rw [if_pos hnorm]
    by_cases h1 : e.1 = v
    · rw [if_pos h1] at hsome
      obtain rfl : e.2 = u := by injection hsome
      refine ⟨fun hc => hne0 (h1.trans hc.symm), ?_⟩
      rw [← h1, hpair]
      exact heall
    · rw [if_neg h1] at hsome
      by_cases h2 : e.2 = v
      · rw [if_pos h2] at hsome
        obtain rfl : e.1 = u := by injection hsome
        refine ⟨fun hc => hne0 (hc.trans h2.symm), ?_⟩
        rw [← h2, sortPair_comm, hpair]
        exact heall
      · rw [if_neg h2] at hsome
        exact Option.noConfusion hsome
  · rintro ⟨hne, hmem⟩
    refine ⟨sortPair v u, List.mem_dedup.mpr hmem, ?_⟩
    unfold sortPair
    by_cases hvu : v ≤ u
    · rw [if_pos hvu]
      simp
    · rw [if_neg hvu]
      simp [hne]

theorem pairAt_components (f : ℕ × ℕ × ℕ) (v : ℕ) (pr : ℕ × ℕ)
    (h : pairAt v f = some pr) :
    sortPair v pr.1 ∈ faceSides f ∧ sortPair v pr.2 ∈ faceSides f ∧
    (f.1 ≠ f.2.1 ∧ f.2.1 ≠ f.2.2 ∧ f.2.2 ≠ f.1 → pr.1 ≠ v ∧ pr.2 ≠ v) := by
  obtain ⟨a, bc⟩ := f
  obtain ⟨b, c⟩ := bc
  unfold pairAt at h
  split_ifs at h with h1 h2 h3
  · obtain rfl : (b, c) = pr := by injection h
    refine ⟨?_, ?_, fun hd => ⟨?_, ?_⟩⟩
    · rw [h1]
      simp [faceSides]
    · rw [h1, sortPair_comm]
      simp [faceSides]
    · rw [h1]
      exact fun hc => hd.1 hc.symm
    · rw [h1]
      exact hd.2.2
  · obtain rfl : (c, a) = pr := by injection h
    refine ⟨?_, ?_, fun hd => ⟨?_, ?_⟩⟩
    · rw [h2]
      simp [faceSides]
    · rw [h2, sortPair_comm]
      simp [faceSides]
    · rw [h2]
      exact fun hc => hd.2.1 hc.symm
    · rw [h2]
      exact hd.1
  · obtain rfl : (a, b) = pr := by injection h
    refine ⟨?_, ?_, fun hd => ⟨?_, ?_⟩⟩
    · rw [h3]
      simp [faceSides]
    · rw [h3, sortPair_comm]
      simp [faceSides]
    · rw [h3]
      exact fun hc => hd.2.2 hc.symm
    · rw [h3]
      exact hd.2.1

theorem pairAt_of_side (f : ℕ × ℕ × ℕ)
    (hnd3 : f.1 ≠ f.2.1 ∧ f.2.1 ≠ f.2.2 ∧ f.2.2 ≠ f.1) (v u : ℕ) (_hne : u ≠ v)
    (hs : sortPair v u ∈ faceSides f) :
    ∃ pr, pairAt v f = some pr ∧ (u = pr.1 ∨ u = pr.2) := by
  obtain ⟨a, bc⟩ := f
  obtain ⟨b, c⟩ := bc
  obtain ⟨hab, hbc, hca⟩ := hnd3
  simp only [faceSides, List.mem_cons, List.not_mem_nil, or_false] at hs
  rcases hs with h | h | h <;> rw [sortPair_eq_iff] at h
  · rcases h with ⟨hv, hu⟩ | ⟨hv, hu⟩
    · exact ⟨(b, c), by simp [pairAt, hv], Or.inl hu⟩
    · exact ⟨(c, a), by simp [pairAt, hv, Ne.symm hab], Or.inr hu⟩
  · rcases h with ⟨hv, hu⟩ | ⟨hv, hu⟩
    · exact ⟨(c, a), by simp [pairAt, hv, Ne.symm hab], Or.inl hu⟩
    · exact ⟨(a, b), by simp [pairAt, hv, hca, Ne.symm hbc], Or.inr hu⟩
  · rcases h with ⟨hv, hu⟩ | ⟨hv, hu⟩
    · exact ⟨(a, b), by simp [pairAt, hv, hca, Ne.symm hbc], Or.inl hu⟩
    · exact ⟨(b, c), by simp [pairAt, hv], Or.inr hu⟩

/-- C7: for an interior vertex of a nondegenerate tessellation — one whose
fan walk closes into a single cyclic neighbor sequence (the counter-clockwise
order being the face winding order that the spec's fan walk follows) — the
cycle's length equals the number of faces incident to that vertex, and the set
of labels in the cycle is exactly the set of vertices sharing an edge with it. -/
theorem neighborhood_fan (faces : List (ℕ × ℕ × ℕ)) (v : ℕ) (cyc : List ℕ)
    (hnd : nondegenerate faces) (hw : neighborhoods faces v = some cyc) :
    cyc.length = (incidentFaces faces v).length ∧
    ∀ u, u ∈ cyc ↔ u ∈ edgeNeighbors faces v := by
  obtain ⟨h1, h2, h3⟩ := fanWalk_spec faces v cyc hw
  constructor
  · rw [h1]
    exact length_filterMap_isSome faces (pairAt v)
  · intro u
    rw [h2 u, mem_edgeNeighbors_iff faces hnd v u]
    constructor
    · intro hu
      obtain ⟨pr, hpr, hfst⟩ := List.mem_map.mp hu
      obtain ⟨f, hf, hpa⟩ := List.mem_filterMap.mp hpr
      have hc := pairAt_components f v pr hpa
      have hnev : pr.1 ≠ v := (hc.2.2 (hnd f hf)).1
      subst hfst
      exact ⟨hnev, List.mem_flatMap.mpr ⟨f, hf, hc.1⟩⟩
    · rintro ⟨hne, hside⟩
      obtain ⟨f, hf, hsf⟩ := List.mem_flatMap.mp hside
      obtain ⟨pr, hpa, hu⟩ := pairAt_of_side f (hnd f hf) v u hne hsf
      have hpr : pr ∈ vertexPairs faces v := List.mem_filterMap.mpr ⟨f, hf, hpa⟩
      rcases hu with rfl | rfl
      · exact List.mem_map.mpr ⟨pr, hpr, rfl⟩
      · exact h3 _ (List.mem_map.mpr ⟨pr, hpr, rfl⟩)

/-- Witness for C7: vertex 0 of the tetrahedron has the closed fan [1, 2, 3],
of length equal to its three incident faces, and label 1 lies in the cycle
exactly as it shares an edge with vertex 0. -/
theorem neighborhood_fan_witness :
    nondegenerate tetraFaces ∧
    neighborhoods tetraFaces 0 = some [1, 2, 3] ∧
    ([1, 2, 3] : List ℕ).length = (incidentFaces tetraFaces 0).length ∧
    (1 ∈ ([1, 2, 3] : List ℕ) ↔ 1 ∈ edgeNeighbors tetraFaces 0) :=
  ⟨by decide, by decide,
   (neighborhood_fan tetraFaces 0 [1, 2, 3] (by decide) (by decide)).1,
   (neighborhood_fan tetraFaces 0 [1, 2, 3] (by decide) (by decide)).2 1⟩

end Neuropythy
